import Mathlib

/-!
A shallow embedding of the Merkle-tree implementation in `src/main.rs`
(crate `merkle_tree`), together with theorems settling the specification
claims about it.

Modelling conventions:

* `Data` and `Hash` are `List Nat` (byte sequences; `Vec<u8>` in the source).
* The SHA-256 primitive (`Sha256::digest`, from the external `sha2` crate)
  is not part of this repository, so every definition is parametric in a
  function `hash_data : Data → Hash`; none of the claims depends on any
  property of the hash beyond it being a function.  Witnesses instantiate
  it with a small concrete function `hd0`.
* A Rust panic (index out of bounds, chunk of size 1 accessed at index 1,
  `len() - 1` underflow on an empty vector) is modelled by `Option`:
  `none` is a panic.  `MerkleTree.prove` therefore returns
  `Option (Option Proof)`: the outer layer is panic/no-panic, the inner
  layer is the Rust `Option<Proof>`.
* `(input.len() as f64).log2() as usize` is modelled by
  `Nat.log2 input.length`.  For every list length below `2 ^ 53` the two
  agree: `f64` represents such integers exactly, `log2` of an exact power
  of two is exact, truncation of the irrational `log2` of a non-power is
  its floor, and Rust's saturating float-to-int cast sends the `-inf`
  produced by `log2(0.0)` to `0 = Nat.log2 0`.
-/

abbrev Data : Type := List Nat

abbrev Hash : Type := List Nat

/-- `HashDirection` from the source: which side the sibling hash takes
when concatenating during proof verification. -/
inductive HashDirection : Type
  | Left : HashDirection
  | Right : HashDirection
deriving DecidableEq, Repr

/-- `Proof` from the source: the ordered list of `(direction, hash)`
pairs to use when verifying the proof. -/
structure Proof : Type where
  hashes : List (HashDirection × Hash)
deriving DecidableEq, Repr

/-- `hash_concat` from the source: concatenates the bytes of the two
hashes (left first) and hashes the result with `hash_data`. -/
def hash_concat (hash_data : Data → Hash) (h1 h2 : Hash) : Hash :=
  hash_data (h1 ++ h2)

/-- The `MerkleTree` struct from the source: all nodes of all layers in
one flat list (bottom layer first), plus the number of layers. -/
structure MerkleTree : Type where
  nodes : List Hash
  layer : Nat
deriving DecidableEq, Repr

/-- One step of tree construction: `tree_root.chunks(2).map(|x| hash_concat(&x[0], &x[1]))`
from the source.  A trailing chunk of size 1 makes `x[1]` panic, hence
`none` exactly when the input length is odd (and nonzero). -/
def combinePairs (hash_data : Data → Hash) : List Hash → Option (List Hash)
  | [] => some []
  | [_] => none
  | x :: y :: rest => (combinePairs hash_data rest).map (hash_concat hash_data x y :: ·)

/-- The construction loop of `MerkleTree::construct`: starting from the
current layer, produce the list of the `fuel` layers above it, failing if
any pairing step panics. -/
def buildFrom (hash_data : Data → Hash) (cur : List Hash) : Nat → Option (List (List Hash))
  | 0 => some []
  | fuel + 1 => do
      let next ← combinePairs hash_data cur
      let rest ← buildFrom hash_data next fuel
      pure (next :: rest)

/-- `MerkleTree::construct` from the source.  Layer 0 is the list of leaf
hashes; `layer_num = (input.len() as f64).log2() as usize` further layers
are stacked on top; the flat node list is the concatenation of all layers
and the stored layer count is `layer_num + 1`.  `none` models the panic
on a trailing odd chunk. -/
def MerkleTree.construct (hash_data : Data → Hash) (input : List Data) : Option MerkleTree :=
  let layer0 : List Hash := input.map hash_data
  let layer_num : Nat := Nat.log2 input.length
  (buildFrom hash_data layer0 layer_num).map (fun layers =>
    { nodes := (layer0 :: layers).flatten, layer := layer_num + 1 })

/-- `MerkleTree::verify` from the source: compares `self.nodes[self.nodes.len() - 1]`
(the cached root, i.e. the last node) with the supplied hash.  The `input`
argument is never read.  On an empty node list the index computation
panics, hence `none`. -/
def MerkleTree.verify (t : MerkleTree) (input : List Data) (root_hash : Hash) : Option Bool :=
  match t.nodes.getLast? with
  | none => none
  | some h => some (decide (h = root_hash))

/-- `Iterator::position` as used in `MerkleTree::prove`: index of the
first element satisfying the predicate, if any. -/
def position (p : Hash → Bool) : List Hash → Option Nat
  | [] => none
  | x :: xs => if p x then some 0 else (position p xs).map (· + 1)

/-- The sibling-collection loop of `MerkleTree::prove`: starting at flat
index `loc`, for `fuel` iterations record the sibling (`loc + 1` with
direction `Right` when `loc` is even, `loc - 1` with direction `Left`
when odd) and move to the parent index
`nodes.len() - (nodes.len() - loc) / 2`.  An out-of-bounds sibling read
panics, hence `none`. -/
def proveLoop (nodes : List Hash) : Nat → Nat → Option (List (HashDirection × Hash))
  | _, 0 => some []
  | loc, fuel + 1 =>
      if loc % 2 = 0 then
        match nodes[loc + 1]? with
        | none => none
        | some sib =>
            (proveLoop nodes (nodes.length - (nodes.length - loc) / 2) fuel).map
              (fun rest => (HashDirection.Right, sib) :: rest)
      else
        match nodes[loc - 1]? with
        | none => none
        | some sib =>
            (proveLoop nodes (nodes.length - (nodes.length - loc) / 2) fuel).map
              (fun rest => (HashDirection.Left, sib) :: rest)

/-- `MerkleTree::prove` from the source: hash the data, search the leaf
slice `nodes[0 .. 2^(layer-1)]` for it (a slice past the end panics,
hence the guard), and if found walk `layer - 1` layers collecting
siblings.  `some none` is Rust's `None` (leaf absent); the outer `none`
is a panic. -/
def MerkleTree.prove (hash_data : Data → Hash) (t : MerkleTree) (data : Data) :
    Option (Option Proof) :=
  let data_hash : Hash := hash_data data
  if 2 ^ (t.layer - 1) ≤ t.nodes.length then
    match position (fun leaf => decide (leaf = data_hash)) (t.nodes.take (2 ^ (t.layer - 1))) with
    | none => some none
    | some idx => (proveLoop t.nodes idx (t.layer - 1)).map (fun es => some ⟨es⟩)
  else none

/-- The loop body of `MerkleTree::verify_proof`: a `Left` sibling is the
left operand of `hash_concat`, a `Right` sibling the right operand. -/
def verifyStep (hash_data : Data → Hash) (cur : Hash) (entry : HashDirection × Hash) : Hash :=
  match entry.1 with
  | HashDirection.Left => hash_concat hash_data entry.2 cur
  | HashDirection.Right => hash_concat hash_data cur entry.2

/-- `MerkleTree::verify_proof` from the source: fold over the proof
entries, at each step concatenating the stored sibling on its recorded
side of the running hash, and compare the result with `root_hash`.  The
tree (`self`) is never read. -/
def MerkleTree.verify_proof (hash_data : Data → Hash) (t : MerkleTree) (data : Data)
    (pr : Proof) (root_hash : Hash) : Bool :=
  let current : Hash := pr.hashes.foldl (verifyStep hash_data) (hash_data data)
  decide (current = root_hash)

/-- A small concrete stand-in for the hash function, used to evaluate the
embedding on concrete inputs. -/
def hd0 (l : Data) : Hash :=
  [l.foldl (fun a b => 2 * a + b + 1) 0]

/-- The layer-combination step as §4.3 of the spec describes it: partition
the layer into consecutive pairs and hash each pair in order.  On
even-length layers this is the successful outcome of `combinePairs`. -/
def combine (hash_data : Data → Hash) : List Hash → List Hash
  | x :: y :: rest => hash_concat hash_data x y :: combine hash_data rest
  | _ => []

/-- The stack of `m` layers that §4.3 builds above the layer `cur`:
each layer is `combine` of the one below it. -/
def layersFrom (hash_data : Data → Hash) (cur : List Hash) : Nat → List (List Hash)
  | 0 => []
  | m + 1 => combine hash_data cur :: layersFrom hash_data (combine hash_data cur) m

/-- The sibling path described by §4.5 of the spec (and claim C9): for a
node at position `p` of the layer `cur`, one entry per layer, leaf-adjacent
first; when the tracked position is even the sibling is the next node with
direction `Right`, when odd the previous node with direction `Left`; the
position then halves and the layer is combined. -/
def siblingPath (hash_data : Data → Hash) (cur : List Hash) (p : Nat) :
    Nat → List (HashDirection × Hash)
  | 0 => []
  | m + 1 =>
      (if p % 2 = 0 then (HashDirection.Right, cur.getD (p + 1) [])
       else (HashDirection.Left, cur.getD (p - 1) []))
      :: siblingPath hash_data (combine hash_data cur) (p / 2) m

/-- The verification fold exactly as §4.6 of the spec words it: starting
from the current hash, for each `(direction, sibling)` entry in order, a
`Left` sibling becomes the left operand of the concatenation-hash and a
`Right` sibling the right operand. -/
def specReplay (hash_data : Data → Hash) (current : Hash) :
    List (HashDirection × Hash) → Hash
  | [] => current
  | (dir, sib) :: rest =>
      specReplay hash_data
        (match dir with
         | HashDirection.Left => hash_data (sib ++ current)
         | HashDirection.Right => hash_data (current ++ sib))
        rest

/-- Four single-byte data blocks, as in the spec's 4-leaf scenario. -/
def L4 : List Data := [[0], [1], [2], [3]]

/-- The tree `construct hd0 L4` produces: leaf hashes `[1]..[4]`, the
middle layer `[7], [13]`, and the root `[30]`. -/
def t4 : MerkleTree :=
  { nodes := [[1], [2], [3], [4], [7], [13], [30]], layer := 3 }

/-- The proof `prove hd0 t4 [2]` produces. -/
def pr4 : Proof :=
  { hashes := [(HashDirection.Right, [4]), (HashDirection.Left, [7])] }

theorem combine_length (hash_data : Data → Hash) :
    ∀ l : List Hash, (combine hash_data l).length = l.length / 2
  | [] => by simp [combine]
  | [x] => by simp [combine]
  | x :: y :: rest => by
      simp only [combine, List.length_cons, combine_length hash_data rest]
      omega

theorem combine_getD (hash_data : Data → Hash) :
    ∀ (l : List Hash) (i : Nat), 2 * i + 1 < l.length →
      (combine hash_data l).getD i [] =
        hash_concat hash_data (l.getD (2 * i) []) (l.getD (2 * i + 1) [])
  | [], i, h => by simp at h
  | [x], i, h => by simp at h
  | x :: y :: rest, 0, h => by simp [combine]
  | x :: y :: rest, i + 1, h => by
      have h2 : 2 * (i + 1) = 2 * i + 1 + 1 := by omega
      rw [h2]
      simp only [combine, List.getD_cons_succ]
      exact combine_getD hash_data rest i (by simp at h; omega)

theorem combinePairs_eq_combine (hash_data : Data → Hash) :
    ∀ l : List Hash, 2 ∣ l.length →
      combinePairs hash_data l = some (combine hash_data l)
  | [], _ => rfl
  | [x], h => by simp at h
  | x :: y :: rest, h => by
      simp only [combinePairs, combine,
        combinePairs_eq_combine hash_data rest (by simp at h ⊢; omega)]
      rfl

theorem buildFrom_eq_layersFrom (hash_data : Data → Hash) :
    ∀ (m : Nat) (cur : List Hash), cur.length = 2 ^ m →
      buildFrom hash_data cur m = some (layersFrom hash_data cur m)
  | 0, cur, _ => rfl
  | m + 1, cur, hcur => by
      have heven : 2 ∣ cur.length := by
        rw [hcur, pow_succ]; exact dvd_mul_left 2 (2 ^ m)
      have hnext : (combine hash_data cur).length = 2 ^ m := by
        rw [combine_length, hcur, pow_succ]; omega
      simp only [buildFrom, combinePairs_eq_combine hash_data cur heven, Option.bind_eq_bind,
        Option.some_bind, buildFrom_eq_layersFrom hash_data m _ hnext, layersFrom]
      rfl

theorem layersFrom_flatten_length (hash_data : Data → Hash) :
    ∀ (m : Nat) (cur : List Hash), cur.length = 2 ^ m →
      (layersFrom hash_data cur m).flatten.length = 2 ^ m - 1
  | 0, cur, _ => by simp [layersFrom]
  | m + 1, cur, hcur => by
      have hnext : (combine hash_data cur).length = 2 ^ m := by
        rw [combine_length, hcur, pow_succ]; omega
      simp only [layersFrom, List.flatten_cons, List.length_append, hnext,
        layersFrom_flatten_length hash_data m _ hnext]
      have hpos : 0 < 2 ^ m := Nat.pos_pow_of_pos m (by omega)
      rw [pow_succ]; omega

theorem construct_eq_layers (hash_data : Data → Hash) (L : List Data) (k : Nat)
    (hlen : L.length = 2 ^ k) :
    MerkleTree.construct hash_data L =
      some ⟨((L.map hash_data) :: layersFrom hash_data (L.map hash_data) k).flatten, k + 1⟩ := by
  have hlog : Nat.log2 L.length = k := by
    rw [hlen, Nat.log2_eq_log_two, Nat.log_pow (by omega)]
  have h0 : (L.map hash_data).length = 2 ^ k := by rw [List.length_map, hlen]
  simp only [MerkleTree.construct, hlog, buildFrom_eq_layersFrom hash_data k _ h0]
  rfl

theorem iterate_combine_length (hash_data : Data → Hash) :
    ∀ (m : Nat) (cur : List Hash), cur.length = 2 ^ m →
      ((combine hash_data)^[m] cur).length = 1
  | 0, cur, hcur => by simpa using hcur
  | m + 1, cur, hcur => by
      have hnext : (combine hash_data cur).length = 2 ^ m := by
        rw [combine_length, hcur, pow_succ]; omega
      rw [Function.iterate_succ_apply]
      exact iterate_combine_length hash_data m _ hnext

theorem flatten_getLast (hash_data : Data → Hash) :
    ∀ (m : Nat) (cur : List Hash), cur.length = 2 ^ m →
      ((cur :: layersFrom hash_data cur m).flatten).getLast? =
        some (((combine hash_data)^[m] cur).getD 0 [])
  | 0, cur, hcur => by
      obtain ⟨a, rfl⟩ := List.length_eq_one.mp (by simpa using hcur)
      simp [layersFrom]
  | m + 1, cur, hcur => by
      have hnext : (combine hash_data cur).length = 2 ^ m := by
        rw [combine_length, hcur, pow_succ]; omega
      have ih := flatten_getLast hash_data m (combine hash_data cur) hnext
      rw [show layersFrom hash_data cur (m + 1)
            = combine hash_data cur :: layersFrom hash_data (combine hash_data cur) m from rfl]
      rw [List.flatten_cons, List.getLast?_append, ih, Function.iterate_succ_apply]
      rfl

theorem getD_of_lt {l : List Hash} {j : Nat} (h : j < l.length) :
    l[j]? = some (l.getD j []) := by
  simp [List.getD_eq_getElem?_getD, List.getElem?_eq_getElem h]

theorem position_eq_none_iff (p : Hash → Bool) :
    ∀ l : List Hash, position p l = none ↔ ∀ x ∈ l, p x = false
  | [] => by simp [position]
  | x :: xs => by
      by_cases hx : p x
      · simp [position, hx]
      · simp [position, hx, Option.map_eq_none', position_eq_none_iff p xs]

theorem position_spec (p : Hash → Bool) :
    ∀ (l : List Hash) (i : Nat), position p l = some i →
      i < l.length ∧ p (l.getD i []) = true ∧ ∀ j, j < i → p (l.getD j []) = false
  | [], i, h => by simp [position] at h
  | x :: xs, i, h => by
      by_cases hx : p x
      · simp [position, hx] at h
        subst h
        exact ⟨by simp, by simpa using hx, fun j hj => by omega⟩
      · simp [position, hx] at h
        obtain ⟨i', hi', rfl⟩ := h
        obtain ⟨hlt, hhit, hbefore⟩ := position_spec p xs i' hi'
        refine ⟨by simpa using hlt, by simpa using hhit, ?_⟩
        intro j hj
        match j with
        | 0 => simpa using hx
        | j' + 1 =>
            simp only [List.getD_cons_succ]
            exact hbefore j' (by omega)

theorem proveLoop_eq_siblingPath (hash_data : Data → Hash) :
    ∀ (m : Nat) (pre cur : List Hash) (p : Nat),
      cur.length = 2 ^ m → p < 2 ^ m → 2 ∣ pre.length →
      proveLoop (pre ++ (cur ++ (layersFrom hash_data cur m).flatten)) (pre.length + p) m
        = some (siblingPath hash_data cur p m)
  | 0, pre, cur, p, hcur, hp, hpre => rfl
  | m + 1, pre, cur, p, hcur, hp, hpre => by
      have hc2 : (2 : Nat) ^ (m + 1) = 2 ^ m * 2 := pow_succ 2 m
      have hposm : 0 < 2 ^ m := Nat.pos_pow_of_pos m (by omega)
      have hsuf : (layersFrom hash_data cur (m + 1)).flatten.length = 2 ^ (m + 1) - 1 :=
        layersFrom_flatten_length hash_data (m + 1) cur hcur
      have hnext : (combine hash_data cur).length = 2 ^ m := by
        rw [combine_length, hcur, pow_succ]; omega
      obtain ⟨q, hq⟩ := hpre
      have hread : ∀ j, j < cur.length →
          (pre ++ (cur ++ (layersFrom hash_data cur (m + 1)).flatten))[pre.length + j]?
            = some (cur.getD j []) := by
        intro j hj
        rw [List.getElem?_append_right (Nat.le_add_right _ _), Nat.add_sub_cancel_left,
          List.getElem?_append_left hj, getD_of_lt hj]
      have hlen : (pre ++ (cur ++ (layersFrom hash_data cur (m + 1)).flatten)).length
          = pre.length + (cur.length + (cur.length - 1)) := by
        simp [hsuf, hcur]
      have hsplit : pre ++ (cur ++ (layersFrom hash_data cur (m + 1)).flatten)
          = (pre ++ cur) ++ (combine hash_data cur
              ++ (layersFrom hash_data (combine hash_data cur) m).flatten) := by
        simp [layersFrom, List.append_assoc]
      have ih := proveLoop_eq_siblingPath hash_data m (pre ++ cur) (combine hash_data cur)
        (p / 2) hnext (by omega) (by simp [List.length_append]; omega)
      have harith : (pre ++ (cur ++ (layersFrom hash_data cur (m + 1)).flatten)).length
            - ((pre ++ (cur ++ (layersFrom hash_data cur (m + 1)).flatten)).length
                - (pre.length + p)) / 2
          = (pre ++ cur).length + p / 2 := by
        rw [hlen, List.length_append]
        have hple : p < cur.length := by omega
        have hcpos : 2 ≤ cur.length := by omega
        omega
      by_cases hpar : p % 2 = 0
      · have hploc : (pre.length + p) % 2 = 0 := by omega
        have hlt : p + 1 < cur.length := by omega
        have hidx : pre.length + p + 1 = pre.length + (p + 1) := by omega
        simp only [proveLoop, hploc, reduceIte, hidx, hread (p + 1) hlt]
        rw [harith, hsplit, ih]
        simp [siblingPath, hpar]
      · have hploc : (pre.length + p) % 2 = 1 := by omega
        have hpos : 1 ≤ p := by omega
        have hlt : p - 1 < cur.length := by omega
        have hidx : pre.length + p - 1 = pre.length + (p - 1) := by omega
        simp only [proveLoop, hploc, reduceIte, hidx, hread (p - 1) hlt]
        rw [harith, hsplit, ih]
        simp [siblingPath, hpar]

theorem foldl_siblingPath (hash_data : Data → Hash) :
    ∀ (m : Nat) (cur : List Hash) (p : Nat), cur.length = 2 ^ m → p < 2 ^ m →
      (siblingPath hash_data cur p m).foldl (verifyStep hash_data) (cur.getD p [])
        = ((combine hash_data)^[m] cur).getD 0 []
  | 0, cur, p, hcur, hp => by
      have hp0 : p = 0 := by omega
      subst hp0
      rfl
  | m + 1, cur, p, hcur, hp => by
      have hc2 : (2 : Nat) ^ (m + 1) = 2 ^ m * 2 := pow_succ 2 m
      have hnext : (combine hash_data cur).length = 2 ^ m := by
        rw [combine_length, hcur, pow_succ]; omega
      have ih := foldl_siblingPath hash_data m (combine hash_data cur) (p / 2) hnext (by omega)
      rw [Function.iterate_succ_apply]
      by_cases hpar : p % 2 = 0
      · have hlt : 2 * (p / 2) + 1 < cur.length := by omega
        have hcomb := combine_getD hash_data cur (p / 2) hlt
        have e1 : 2 * (p / 2) = p := by omega
        rw [e1] at hcomb
        simp only [siblingPath, hpar, reduceIte, List.foldl_cons, verifyStep]
        rw [← hcomb]
        exact ih
      · have hlt : 2 * (p / 2) + 1 < cur.length := by omega
        have hcomb := combine_getD hash_data cur (p / 2) hlt
        have e1 : 2 * (p / 2) + 1 = p := by omega
        rw [e1] at hcomb
        have e2 : 2 * (p / 2) = p - 1 := by omega
        rw [e2] at hcomb
        simp only [siblingPath, hpar, reduceIte, List.foldl_cons, verifyStep]
        rw [← hcomb]
        exact ih

theorem siblingPath_length (hash_data : Data → Hash) :
    ∀ (m : Nat) (cur : List Hash) (p : Nat), (siblingPath hash_data cur p m).length = m
  | 0, _, _ => rfl
  | m + 1, cur, p => by
      simp only [siblingPath, List.length_cons,
        siblingPath_length hash_data m (combine hash_data cur) (p / 2)]

theorem prove_eq_of_construct (hash_data : Data → Hash) (L : List Data) (k : Nat)
    (t : MerkleTree) (hlen : L.length = 2 ^ k)
    (ht : MerkleTree.construct hash_data L = some t) (d : Data) :
    t.layer = k + 1 ∧
    t.nodes.take (2 ^ (t.layer - 1)) = L.map hash_data ∧
    t.nodes.getLast? = some (((combine hash_data)^[k] (L.map hash_data)).getD 0 []) ∧
    MerkleTree.prove hash_data t d =
      (match position (fun leaf => decide (leaf = hash_data d)) (L.map hash_data) with
       | none => some none
       | some idx => some (some ⟨siblingPath hash_data (L.map hash_data) idx k⟩)) := by
  rw [construct_eq_layers hash_data L k hlen] at ht
  obtain rfl : (⟨((L.map hash_data) :: layersFrom hash_data (L.map hash_data) k).flatten, k + 1⟩
      : MerkleTree) = t := Option.some.inj ht
  have h0 : (L.map hash_data).length = 2 ^ k := by rw [List.length_map, hlen]
  have hpos : 0 < 2 ^ k := Nat.pos_pow_of_pos k (by omega)
  have hflat : ((L.map hash_data) :: layersFrom hash_data (L.map hash_data) k).flatten
      = (L.map hash_data) ++ (layersFrom hash_data (L.map hash_data) k).flatten :=
    List.flatten_cons
  have hnlen : (((L.map hash_data) :: layersFrom hash_data (L.map hash_data) k).flatten).length
      = 2 ^ k + (2 ^ k - 1) := by
    rw [hflat, List.length_append, h0, layersFrom_flatten_length hash_data k _ h0]
  have htake : (((L.map hash_data) :: layersFrom hash_data (L.map hash_data) k).flatten).take
      (2 ^ k) = L.map hash_data := by
    rw [hflat, List.take_left' h0]
  refine ⟨rfl, htake, flatten_getLast hash_data k _ h0, ?_⟩
  show MerkleTree.prove hash_data _ d = _
  have hguard : 2 ^ k ≤ (((L.map hash_data) :: layersFrom hash_data
      (L.map hash_data) k).flatten).length := by rw [hnlen]; omega
  simp only [MerkleTree.prove, Nat.add_sub_cancel]
  rw [if_pos hguard, htake]
  cases hfind : position (fun leaf => decide (leaf = hash_data d)) (L.map hash_data) with
  | none => rfl
  | some idx =>
      obtain ⟨hidx, _, _⟩ := position_spec _ _ _ hfind
      rw [h0] at hidx
      have hwalk := proveLoop_eq_siblingPath hash_data k [] (L.map hash_data) idx h0 hidx
        ⟨0, rfl⟩
      simp only [List.nil_append, List.length_nil, Nat.zero_add] at hwalk
      rw [hflat]
      simp [hwalk]

theorem specReplay_eq_foldl (hash_data : Data → Hash) :
    ∀ (entries : List (HashDirection × Hash)) (cur : Hash),
      specReplay hash_data cur entries = entries.foldl (verifyStep hash_data) cur
  | [], _ => rfl
  | (dir, sib) :: rest, cur => by
      cases dir <;>
        simp [specReplay, verifyStep, List.foldl_cons, hash_concat,
          specReplay_eq_foldl hash_data rest]

theorem construct_L4 : MerkleTree.construct hd0 L4 = some t4 := by
  rw [construct_eq_layers hd0 L4 2 (by decide)]
  rfl

/-- C1: Round-trip proof validity: for every non-empty leaf list whose
length is a power of two and every data block occurring in it, `construct`
succeeds, `prove` returns a proof, and `verify_proof` of that proof
against the tree's root digest (the last entry of the flat node list)
returns `true`. -/
theorem round_trip_proof_validity (hash_data : Data → Hash) (L : List Data) (k : Nat)
    (d : Data) (hlen : L.length = 2 ^ k) (hmem : d ∈ L) :
    ∃ (t : MerkleTree) (pr : Proof) (r : Hash),
      MerkleTree.construct hash_data L = some t ∧
      MerkleTree.prove hash_data t d = some (some pr) ∧
      t.nodes.getLast? = some r ∧
      MerkleTree.verify_proof hash_data t d pr r = true := by
  obtain ⟨t, ht⟩ : ∃ t, MerkleTree.construct hash_data L = some t :=
    ⟨_, construct_eq_layers hash_data L k hlen⟩
  obtain ⟨hlayer, htake, hlast, hprove⟩ := prove_eq_of_construct hash_data L k t hlen ht d
  have hmem0 : hash_data d ∈ L.map hash_data := List.mem_map_of_mem _ hmem
  have h0 : (L.map hash_data).length = 2 ^ k := by rw [List.length_map, hlen]
  cases hfind : position (fun leaf => decide (leaf = hash_data d)) (L.map hash_data) with
  | none =>
      exfalso
      have := (position_eq_none_iff _ _).mp hfind _ hmem0
      simp at this
  | some idx =>
      obtain ⟨hidx, hhit, _⟩ := position_spec _ _ _ hfind
      rw [h0] at hidx
      rw [hfind] at hprove
      refine ⟨t, ⟨siblingPath hash_data (L.map hash_data) idx k⟩,
        ((combine hash_data)^[k] (L.map hash_data)).getD 0 [], ht, by simpa using hprove,
        hlast, ?_⟩
      have hstart : (L.map hash_data).getD idx [] = hash_data d := by simpa using hhit
      unfold MerkleTree.verify_proof
      rw [show (Proof.mk (siblingPath hash_data (L.map hash_data) idx k)).hashes
            = siblingPath hash_data (L.map hash_data) idx k from rfl]
      rw [← hstart, foldl_siblingPath hash_data k _ idx h0 hidx]
      simp

/-- C1 witness: the round trip at the 4-leaf scenario with `d = [2]`. -/
theorem round_trip_proof_validity_witness :
    ∃ (t : MerkleTree) (pr : Proof) (r : Hash),
      MerkleTree.construct hd0 L4 = some t ∧
      MerkleTree.prove hd0 t [2] = some (some pr) ∧
      t.nodes.getLast? = some r ∧
      MerkleTree.verify_proof hd0 t [2] pr r = true :=
  round_trip_proof_validity hd0 L4 2 [2] (by decide) (by decide)

/-- C2: the spec requires `construct` to fail with an explicit error on
an empty or non-power-of-two leaf sequence; the code instead panics on
three leaves (modelled: the panic marker `none`, not an error value) and
silently produces a degenerate tree on the empty sequence. -/
theorem construct_invalid_input_behaviour :
    MerkleTree.construct hd0 [[0], [1], [2]] = none ∧
    MerkleTree.construct hd0 [] = some ⟨[], 1⟩ := by
  constructor
  · show MerkleTree.construct hd0 [[0], [1], [2]] = none
    have h3 : Nat.log2 3 = 1 := by simp [Nat.log2]
    simp only [MerkleTree.construct, List.length_cons, List.length_nil]
    rw [show (0 : Nat) + 1 + 1 + 1 = 3 from rfl, h3]
    rfl
  · show MerkleTree.construct hd0 [] = some ⟨[], 1⟩
    have h0 : Nat.log2 0 = 0 := by simp [Nat.log2]
    simp only [MerkleTree.construct, List.length_nil, h0]
    rfl

/-- C3: `verify` is a pure cached-root comparison: it returns `true`
exactly when the last entry of the flat digest sequence is the supplied
digest, and its result does not depend on the `input` argument at all. -/
theorem verify_cached_root_comparison (t : MerkleTree) (inputA inputB : List Data) (r : Hash) :
    (MerkleTree.verify t inputA r = some true ↔ t.nodes.getLast? = some r) ∧
    MerkleTree.verify t inputA r = MerkleTree.verify t inputB r := by
  refine ⟨?_, rfl⟩
  unfold MerkleTree.verify
  cases h : t.nodes.getLast? with
  | none => simp
  | some x => simp

/-- C4: a tree built from `2 ^ k` leaves has `2 * 2 ^ k - 1` digests in
its flat sequence and a stored layer count of `k + 1`. -/
theorem layer_arithmetic (hash_data : Data → Hash) (L : List Data) (k : Nat) (t : MerkleTree)
    (hlen : L.length = 2 ^ k) (ht : MerkleTree.construct hash_data L = some t) :
    t.nodes.length = 2 * 2 ^ k - 1 ∧ t.layer = k + 1 := by
  rw [construct_eq_layers hash_data L k hlen] at ht
  obtain rfl := Option.some.inj ht
  have h0 : (L.map hash_data).length = 2 ^ k := by rw [List.length_map, hlen]
  have hpos : 0 < 2 ^ k := Nat.pos_pow_of_pos k (by omega)
  refine ⟨?_, rfl⟩
  show ((L.map hash_data) :: layersFrom hash_data (L.map hash_data) k).flatten.length = _
  rw [List.flatten_cons, List.length_append, h0, layersFrom_flatten_length hash_data k _ h0]
  omega

/-- C4 witness: the 4-leaf tree has 7 nodes and 3 layers. -/
theorem layer_arithmetic_witness :
    t4.nodes.length = 2 * 2 ^ 2 - 1 ∧ t4.layer = 2 + 1 :=
  layer_arithmetic hd0 L4 2 t4 (by decide) construct_L4

/-- C5: `verify_proof` replays exactly the fold the spec describes
(`specReplay`): start from the leaf hash of the target, combine each
proof entry on its recorded side, and compare the result with the
claimed root. -/
theorem verify_proof_replays_spec_fold (hash_data : Data → Hash) (t : MerkleTree)
    (data : Data) (pr : Proof) (root_hash : Hash) :
    MerkleTree.verify_proof hash_data t data pr root_hash
      = decide (specReplay hash_data (hash_data data) pr.hashes = root_hash) := by
  unfold MerkleTree.verify_proof
  rw [specReplay_eq_foldl]

/-- C6: on a constructed tree, `prove` returns `None` exactly when the
hash of the target equals none of the first `leafCount` entries of the
flat sequence, and a returned proof is generated from the leftmost
matching leaf position. -/
theorem prove_absence_first_match (hash_data : Data → Hash) (L : List Data) (k : Nat)
    (t : MerkleTree) (hlen : L.length = 2 ^ k)
    (ht : MerkleTree.construct hash_data L = some t) (d : Data) :
    (MerkleTree.prove hash_data t d = some none ↔
      hash_data d ∉ t.nodes.take (2 ^ (t.layer - 1))) ∧
    ∀ pr, MerkleTree.prove hash_data t d = some (some pr) →
      ∃ i, i < 2 ^ k ∧ (t.nodes.take (2 ^ (t.layer - 1))).getD i [] = hash_data d ∧
        (∀ j, j < i → (t.nodes.take (2 ^ (t.layer - 1))).getD j [] ≠ hash_data d) ∧
        pr.hashes = siblingPath hash_data (L.map hash_data) i k := by
  obtain ⟨hlayer, htake, hlast, hprove⟩ := prove_eq_of_construct hash_data L k t hlen ht d
  have h0 : (L.map hash_data).length = 2 ^ k := by rw [List.length_map, hlen]
  rw [htake, hprove]
  constructor
  · cases hfind : position (fun leaf => decide (leaf = hash_data d)) (L.map hash_data) with
    | none =>
        simp only [reduceCtorEq]
        constructor
        · intro _ hmem
          have := (position_eq_none_iff _ _).mp hfind _ hmem
          simp at this
        · intro _
          trivial
    | some idx =>
        obtain ⟨hidx, hhit, _⟩ := position_spec _ _ _ hfind
        have hmem : hash_data d ∈ L.map hash_data := by
          have hgd : (L.map hash_data).getD idx [] = hash_data d := by simpa using hhit
          rw [List.getD_eq_getElem?_getD, List.getElem?_eq_getElem hidx] at hgd
          simp only [Option.getD_some] at hgd
          rw [← hgd]
          exact List.getElem_mem hidx
        simp [hmem]
  · intro pr hpr
    cases hfind : position (fun leaf => decide (leaf = hash_data d)) (L.map hash_data) with
    | none => rw [hfind] at hpr; simp at hpr
    | some idx =>
        rw [hfind] at hpr
        simp only [Option.some.injEq] at hpr
        obtain ⟨hidx, hhit, hbefore⟩ := position_spec _ _ _ hfind
        rw [h0] at hidx
        refine ⟨idx, hidx, by simpa using hhit, ?_, by rw [← hpr]⟩
        intro j hj
        have := hbefore j hj
        simpa using this

/-- C6 witness: `prove` at the 4-leaf tree, for the absent block `[9]`. -/
theorem prove_absence_first_match_witness :
    (MerkleTree.prove hd0 t4 [9] = some none ↔
      hd0 [9] ∉ t4.nodes.take (2 ^ (t4.layer - 1))) ∧
    ∀ pr, MerkleTree.prove hd0 t4 [9] = some (some pr) →
      ∃ i, i < 2 ^ 2 ∧ (t4.nodes.take (2 ^ (t4.layer - 1))).getD i [] = hd0 [9] ∧
        (∀ j, j < i → (t4.nodes.take (2 ^ (t4.layer - 1))).getD j [] ≠ hd0 [9]) ∧
        pr.hashes = siblingPath hd0 (L4.map hd0) i 2 :=
  prove_absence_first_match hd0 L4 2 t4 (by decide) construct_L4 [9]

/-- C7: the spec says no core operation aborts; the code does abort:
`construct` on five leaves hits an out-of-bounds pair access while
chunking the odd middle layer and panics (modelled: the panic marker
`none`). -/
theorem construct_five_leaves_panics :
    MerkleTree.construct hd0 [[0], [1], [2], [3], [4]] = none := by
  have h5 : Nat.log2 5 = 2 := by simp [Nat.log2]
  simp only [MerkleTree.construct, List.length_cons, List.length_nil]
  rw [show (0 : Nat) + 1 + 1 + 1 + 1 + 1 = 5 from rfl, h5]
  rfl

/-- C8: the first `N` entries of a constructed tree's flat sequence are
the leaf hashes of the input blocks in input order, and the final entry
is the root: the single digest of the top layer (`k`-fold `combine` of
the leaf layer). -/
theorem flat_storage_layout (hash_data : Data → Hash) (L : List Data) (k : Nat)
    (t : MerkleTree) (hlen : L.length = 2 ^ k)
    (ht : MerkleTree.construct hash_data L = some t) :
    t.nodes.take L.length = L.map hash_data ∧
    ∃ r, t.nodes.getLast? = some r ∧ (combine hash_data)^[k] (L.map hash_data) = [r] := by
  obtain ⟨hlayer, htake, hlast, _⟩ := prove_eq_of_construct hash_data L k t hlen ht []
  have h0 : (L.map hash_data).length = 2 ^ k := by rw [List.length_map, hlen]
  have h1 : ((combine hash_data)^[k] (L.map hash_data)).length = 1 :=
    iterate_combine_length hash_data k _ h0
  obtain ⟨r, hr⟩ := List.length_eq_one.mp h1
  have hlayer1 : t.layer - 1 = k := by omega
  rw [hlayer1] at htake
  refine ⟨by rw [hlen]; exact htake, r, ?_, hr⟩
  rw [hlast, hr]
  rfl

/-- C8 witness: layout of the 4-leaf tree. -/
theorem flat_storage_layout_witness :
    t4.nodes.take L4.length = L4.map hd0 ∧
    ∃ r, t4.nodes.getLast? = some r ∧ (combine hd0)^[2] (L4.map hd0) = [r] :=
  flat_storage_layout hd0 L4 2 t4 (by decide) construct_L4

/-- C9: a proof returned by `prove` on a constructed tree has exactly
`layer - 1` entries and is the sibling path of the matched leaf
position: leaf-adjacent entry first, each entry the sibling digest at
its layer, direction `Right` when the tracked position is even and
`Left` when it is odd (`siblingPath`). -/
theorem proof_shape (hash_data : Data → Hash) (L : List Data) (k : Nat) (t : MerkleTree)
    (d : Data) (pr : Proof) (hlen : L.length = 2 ^ k)
    (ht : MerkleTree.construct hash_data L = some t)
    (hp : MerkleTree.prove hash_data t d = some (some pr)) :
    pr.hashes.length = t.layer - 1 ∧
    ∃ i, i < 2 ^ k ∧ pr.hashes = siblingPath hash_data (L.map hash_data) i k := by
  obtain ⟨hlayer, htake, hlast, hprove⟩ := prove_eq_of_construct hash_data L k t hlen ht d
  rw [hprove] at hp
  cases hfind : position (fun leaf => decide (leaf = hash_data d)) (L.map hash_data) with
  | none => rw [hfind] at hp; simp at hp
  | some idx =>
      rw [hfind] at hp
      simp only [Option.some.injEq] at hp
      obtain ⟨hidx, _, _⟩ := position_spec _ _ _ hfind
      rw [List.length_map, hlen] at hidx
      have hhashes : pr.hashes = siblingPath hash_data (L.map hash_data) idx k := by
        rw [← hp]
      refine ⟨?_, idx, hidx, hhashes⟩
      rw [hhashes, siblingPath_length, hlayer]
      omega

/-- C9 witness: the proof for `[2]` in the 4-leaf tree has 2 entries and
is a sibling path. -/
theorem proof_shape_witness :
    pr4.hashes.length = t4.layer - 1 ∧
    ∃ i, i < 2 ^ 2 ∧ pr4.hashes = siblingPath hd0 (L4.map hd0) i 2 :=
  proof_shape hd0 L4 2 t4 [2] pr4 (by decide) construct_L4 (by decide)

/-- C10: `verify_proof` reads none of the receiving tree's state, so any
two trees give identical results on identical data, proof and claimed
root. -/
theorem verify_proof_tree_independent (hash_data : Data → Hash) (tA tB : MerkleTree)
    (data : Data) (pr : Proof) (r : Hash) :
    MerkleTree.verify_proof hash_data tA data pr r
      = MerkleTree.verify_proof hash_data tB data pr r := rfl
